import Mathlib

/-!
Verification development for the three-stage YouTube audio pipeline
(`src/downloader.py`, `src/transcriber.py`, `src/summarizer.py`).

The on-disk state under `data/` is modelled explicitly as listings of the
four directories. Third-party collaborators (the media downloader, the
speech-recognition model, the summarization models) are modelled as
deterministic oracles passed in as structures, with explicit failure
injection for the exception paths the code catches per item. Strings are
Lean `String`s; the Python string operations used by the code (strip,
startswith-style prefix matching, lexicographic sorting) are implemented
over `List Char` so that every definition evaluates by kernel reduction.
-/

/-- Lexicographic comparison of character lists by code point, as Python
compares `str` values (used by `sorted`). -/
def charListLe : List Char → List Char → Bool
  | [], _ => true
  | _ :: _, [] => false
  | a :: as, b :: bs => if a = b then charListLe as bs else decide (a < b)

/-- Python `a <= b` on strings. -/
def strLe (a b : String) : Bool := charListLe a.toList b.toList

/-- Python `sorted` on a list of same-directory paths: ascending
lexicographic order by filename, stable (insertion sort, like Python's
Timsort, keeps equal keys in input order). -/
def sortNames (l : List String) : List String :=
  List.insertionSort (fun a b => strLe a b = true) l

/-- Python `s.strip()`: remove surrounding whitespace (modelled with the
ASCII whitespace class). -/
def pyStrip (s : String) : String :=
  String.mk (((s.toList.dropWhile Char.isWhitespace).reverse.dropWhile
      Char.isWhitespace).reverse)

/-- Python `name.startswith(p)`. -/
def strStartsWith (p s : String) : Bool := p.toList.isPrefixOf s.toList

/-- Python glob pattern `*.suffix` match on the filename tail. -/
def strEndsWith (p s : String) : Bool := p.toList.isSuffixOf s.toList

/-- Position of the last `'.'` in a character list, if any. -/
def lastDot (cs : List Char) : Option Nat :=
  ((List.range cs.length).filter (fun i => cs.get? i = some '.')).getLast?

/-- Python `pathlib.Path(name).stem`: the filename without its final
suffix; a dot that is the first or last character does not open a
suffix. -/
def stem (s : String) : String :=
  let cs := s.toList
  match lastDot cs with
  | none => s
  | some k => if 0 < k ∧ k < cs.length - 1 then String.mk (cs.take k) else s

/-- JSON scalar values as stored in metadata records by `json.dump`.
Durations are modelled as integers; the pipeline never computes with
them. -/
inductive JVal where
  | str : String → JVal
  | num : Int → JVal
  | null : JVal
deriving DecidableEq

/-- One metadata record: a JSON object modelled as an insertion-ordered
association list, mirroring a Python dict (assignment to an existing key
replaces in place, a new key is appended at the end). -/
abbrev MetaRec := List (String × JVal)

/-- Dictionary lookup (`d.get(k)` / `d[k]`). -/
def getA {α : Type} : List (String × α) → String → Option α
  | [], _ => none
  | (k, v) :: r, key => if k = key then some v else getA r key

/-- Dictionary assignment `d[k] = v`: replace the binding in place if the
key exists, else append; also models overwriting a file in a directory
listing. -/
def putA {α : Type} : List (String × α) → String → α → List (String × α)
  | [], key, v => [(key, v)]
  | (k, w) :: r, key, v => if k = key then (k, v) :: r else (k, w) :: putA r key v

/-- State of the `data/` tree. Audio files carry no content (the pipeline
never reads their bytes); transcript and summary files carry their text;
metadata records are keyed by video id (file `data/metadata/<id>.json`).
List order of `audio` is directory enumeration order (what an unsorted
glob returns). -/
structure FS where
  audio : List String
  transcripts : List (String × String)
  summaries : List (String × String)
  metadata : List (String × MetaRec)
deriving DecidableEq

def AUDIO_DIR : String := "data/audio"
def TRANS_DIR : String := "data/transcripts"
def SUMM_DIR : String := "data/summaries"

/-! ## Fetcher (`downloader.py`) -/

/-- One resolved playlist entry, as `entry.get(...)` reads it. The id is
the filename stem for every artifact of the item. -/
structure Entry where
  id : String
  title : Option String
  webpage_url : Option String
  duration : Option Int
deriving DecidableEq

/-- The yt-dlp collaborator: `extract` is `extract_info(url,
download=False)` flattened to its entry list (a single video yields a
one-element list; a playlist may contain `None` entries, skipped by the
loop); `dl` is the per-item `ydl.download([webpage_url])` call — `none`
models a raised exception, `some files` the filenames the call (with its
mp3 postprocessor) leaves in `data/audio/`. -/
structure FetchCollab where
  extract : String → List (Option Entry)
  dl : Entry → Option (List String)

/-- Effect of creating one file in a directory listing: writing a file
that already exists leaves the listing unchanged. -/
def insertName (l : List String) (n : String) : List String :=
  if n ∈ l then l else l ++ [n]

/-- Effect of a download call creating its files. -/
def dlInsert (l : List String) (files : List String) : List String :=
  files.foldl insertName l

def optStr : Option String → JVal
  | none => JVal.null
  | some s => JVal.str s

def optNum : Option Int → JVal
  | none => JVal.null
  | some n => JVal.num n

/-- Audio lookup after a successful download (downloader.py lines 58-63):
take `<id>.mp3` if present, else the first `glob(f"{video_id}.*")` match
in directory order, else nothing. -/
def downloadFound (audio : List String) (e : Entry) : Option String :=
  let mp3 := e.id ++ ".mp3"
  if mp3 ∈ audio then some mp3
  else (audio.filter (fun n => strStartsWith (e.id ++ ".") n)).head?

/-- The metadata record the fetcher writes for one entry (downloader.py
lines 65-71), given the audio listing after the download call. -/
def downloadMeta (audio : List String) (e : Entry) : MetaRec :=
  [("video_id", JVal.str e.id),
   ("title", optStr e.title),
   ("webpage_url", optStr e.webpage_url),
   ("duration", optNum e.duration),
   ("audio_path",
     match downloadFound audio e with
     | some n => JVal.str (AUDIO_DIR ++ "/" ++ n)
     | none => JVal.null)]

/-- Filesystem effect of one iteration of the download loop (downloader.py
lines 43-78): `None` entries are skipped; a raised download is logged and
skipped; otherwise the downloaded files land in `data/audio/` and a fresh
metadata record is written unconditionally. -/
def downloadStepFS (c : FetchCollab) (fs : FS) (oe : Option Entry) : FS :=
  match oe with
  | none => fs
  | some e =>
    match c.dl e with
    | none => fs
    | some files =>
      let audio := dlInsert fs.audio files
      { fs with audio := audio,
                metadata := putA fs.metadata e.id (downloadMeta audio e) }

/-- One iteration of the download loop together with the `results`
accumulator returned by `download`. -/
def downloadStep (c : FetchCollab) (st : FS × List MetaRec) (oe : Option Entry) :
    FS × List MetaRec :=
  (downloadStepFS c st.1 oe,
   match oe with
   | none => st.2
   | some e =>
     match c.dl e with
     | none => st.2
     | some files => st.2 ++ [downloadMeta (dlInsert st.1.audio files) e])

/-- `download(url)` (downloader.py lines 32-80): iterate the resolved
entries, returning the final filesystem state and the list of metadata
records written, in resolution order. -/
def download (c : FetchCollab) (url : String) (fs : FS) : FS × List MetaRec :=
  (c.extract url).foldl (downloadStep c) (fs, [])

/-! ## Transcriber (`transcriber.py`) -/

/-- One timed segment from the speech-recognition model. Times are
modelled as integers (the source's floats are never computed with). -/
structure Segment where
  startT : Int
  endT : Int
  text : String
deriving DecidableEq

/-- Failure injection points inside the per-item `try` block of the
transcriber loop: the model call, the text-file write, or the JSON-file
write raising. -/
inductive TFail where
  | atTranscribe
  | atWriteTxt
  | atWriteJson
deriving DecidableEq

/-- The faster-whisper collaborator: `res` gives the segment sequence for
an audio file, `fail` injects a per-item exception (caught by the loop's
`except`). -/
structure TransCollab where
  res : String → List Segment
  fail : String → Option TFail

/-- `transcribe_audio` (transcriber.py lines 24-38), minus the model call:
trim each segment text; the full text is the space-joined trimmed segment
texts in segment order. -/
def transcribe_audio (segs : List Segment) : String × List Segment :=
  let segs' := segs.map (fun s => { s with text := pyStrip s.text })
  (String.intercalate " " (segs'.map (fun s => s.text)), segs')

/-- Stand-in for the `json.dump(segments, ...)` serialization; the
pipeline never reads this content back, only the file's existence
matters. -/
def encodeSegment (s : Segment) : String :=
  toString s.startT ++ "|" ++ toString s.endT ++ "|" ++ s.text

def encodeSegments (l : List Segment) : String :=
  String.intercalate "\n" (l.map encodeSegment)

/-- Filesystem effect of one iteration of the transcriber loop
(transcriber.py lines 47-76): skip if `<id>.txt` exists; otherwise run the
model and write `<id>.txt` then `<id>.json`, and finally read-modify-write
the metadata record (if one exists) setting `transcript_path`. A failure
at any injected point abandons the item there (caught by `except`). -/
def transStepFS (c : TransCollab) (fs : FS) (a : String) : FS :=
  let vid := stem a
  let txtName := vid ++ ".txt"
  let jsonName := vid ++ ".json"
  if (getA fs.transcripts txtName).isSome then fs
  else
    match c.fail a with
    | some TFail.atTranscribe => fs
    | some TFail.atWriteTxt => fs
    | some TFail.atWriteJson =>
      { fs with transcripts :=
          (putA fs.transcripts txtName (transcribe_audio (c.res a)).1) }
    | none =>
      let r := transcribe_audio (c.res a)
      let fs1 := { fs with transcripts :=
          (putA (putA fs.transcripts txtName r.1) jsonName (encodeSegments r.2)) }
      match getA fs1.metadata vid with
      | none => fs1
      | some m =>
        { fs1 with metadata := (putA fs1.metadata vid
            (putA m "transcript_path" (JVal.str (TRANS_DIR ++ "/" ++ txtName)))) }

/-- One iteration of the transcriber loop, also recording (for
observation) the ids of items actually attempted, i.e. not skipped by the
checkpoint. -/
def transStep (c : TransCollab) (st : FS × List String) (a : String) :
    FS × List String :=
  (transStepFS c st.1 a,
   if (getA st.1.transcripts (stem a ++ ".txt")).isSome then st.2
   else st.2 ++ [stem a])

/-- The work list of the transcriber (transcriber.py line 44):
`sorted(AUDIO_DIR.glob("*.mp3"))` — only `*.mp3` names (glob's `*` does
not match a leading dot), in lexicographic order. -/
def audioList (fs : FS) : List String :=
  sortNames (fs.audio.filter
    (fun n => strEndsWith ".mp3" n && !(strStartsWith "." n)))

/-- `main()` of the transcriber (transcriber.py lines 41-78). -/
def transMain (c : TransCollab) (fs : FS) : FS × List String :=
  (audioList fs).foldl (transStep c) (fs, [])

/-! ## Summarizer (`summarizer.py`) -/

/-- Python `range(start, stop, step)` for a positive step. -/
def pyRange (start stop step : Nat) : List Nat :=
  if h : start < stop ∧ 0 < step then start :: pyRange (start + step) stop step
  else []
termination_by stop - start
decreasing_by exact Nat.sub_lt_sub_left h.1 (Nat.lt_add_of_pos_right h.2)

/-- Direct transliteration of the chunking comprehension
(summarizer.py line 43): `[text[i:i + max_chunk] for i in
range(0, len(text), max_chunk)]`. -/
def pyChunksSpec (cs : List Char) (n : Nat) : List (List Char) :=
  (pyRange 0 cs.length n).map (fun i => (cs.drop i).take n)

/-- Structural (fuel-indexed) form of the same chunking, used so that the
definition evaluates by kernel reduction; proved equal to
`pyChunksSpec` below. -/
def chunksOfAux (n : Nat) : Nat → List Char → List (List Char)
  | 0, _ => []
  | _, [] => []
  | fuel + 1, l => l.take n :: chunksOfAux n fuel (l.drop n)

def pyChunks (cs : List Char) (n : Nat) : List (List Char) :=
  if n = 0 then [] else chunksOfAux n cs.length cs

/-- `abstractive_summary` (summarizer.py lines 39-49): split the text into
5000-character chunks, summarize each chunk (`summarizer(chunk)[0]
["summary_text"].strip()`), and join the chunk summaries with single
spaces in chunk order. -/
def abstractive_summary (chunkSumm : String → String) (text : String) : String :=
  String.intercalate " "
    ((pyChunks text.toList 5000).map (fun c => pyStrip (chunkSumm (String.mk c))))

/-- The summarization collaborators: `initFails` is whether
`pipeline("summarization", ...)` raises at startup; `chunkSumm` is the
abstractive model applied to one chunk; `sentences` is the LexRank
top-5-sentence selection of `extractive_summary`; `fail` injects a
per-item exception inside the loop's `try` (summarize call or file
write), caught by the `except`. -/
structure SummCollab where
  initFails : Bool
  chunkSumm : String → String
  sentences : String → List String
  fail : String → Bool

/-- `extractive_summary` (summarizer.py lines 52-57): join the selected
sentences with single spaces. -/
def extractive_summary (c : SummCollab) (text : String) : String :=
  String.intercalate " " (c.sentences text)

/-- Which summarization strategy an item was processed with. -/
inductive Strategy where
  | abstractive
  | extractive
deriving DecidableEq

/-- Filesystem effect of one iteration of the summarizer loop
(summarizer.py lines 73-108): skip if `<id>_summary.txt` exists; read and
strip the transcript (an unreadable file is a caught per-item failure);
skip silently if shorter than 100 characters; otherwise summarize with the
run-wide strategy, write the summary file, and read-modify-write the
metadata record (if one exists) setting `summary_path`. -/
def summStepFS (c : SummCollab) (ue : Bool) (fs : FS) (t : String) : FS :=
  let vid := stem t
  let outName := vid ++ "_summary.txt"
  if (getA fs.summaries outName).isSome then fs
  else
    match getA fs.transcripts t with
    | none => fs
    | some raw =>
      let text := pyStrip raw
      if text.length < 100 then fs
      else if c.fail t then fs
      else
        let s := if ue then extractive_summary c text
                 else abstractive_summary c.chunkSumm text
        let fs1 := { fs with summaries := putA fs.summaries outName s }
        match getA fs1.metadata vid with
        | none => fs1
        | some m =>
          { fs1 with metadata := (putA fs1.metadata vid
              (putA m "summary_path" (JVal.str (SUMM_DIR ++ "/" ++ outName)))) }

/-- Log of one summarizer iteration: records `(id, strategy)` whenever the
item reaches the summarization call (not skipped by the checkpoint,
readable, and long enough). -/
def summStepLog (ue : Bool) (fs : FS)
    (log : List (String × Strategy)) (t : String) : List (String × Strategy) :=
  let vid := stem t
  if (getA fs.summaries (vid ++ "_summary.txt")).isSome then log
  else
    match getA fs.transcripts t with
    | none => log
    | some raw =>
      if (pyStrip raw).length < 100 then log
      else log ++ [(vid, if ue then Strategy.extractive else Strategy.abstractive)]

def summStep (c : SummCollab) (ue : Bool) (st : FS × List (String × Strategy))
    (t : String) : FS × List (String × Strategy) :=
  (summStepFS c ue st.1 t, summStepLog ue st.1 st.2 t)

/-- The work list of the summarizer (summarizer.py line 70):
`sorted(TRANS_DIR.glob("*.txt"))`. -/
def transcriptList (fs : FS) : List String :=
  sortNames ((fs.transcripts.map Prod.fst).filter
    (fun n => strEndsWith ".txt" n && !(strStartsWith "." n)))

/-- `main()` of the summarizer (summarizer.py lines 60-110): the strategy
is fixed once, before the loop, by whether the abstractive pipeline
initialization raised. -/
def summMain (c : SummCollab) (fs : FS) : FS × List (String × Strategy) :=
  (transcriptList fs).foldl (summStep c c.initFails) (fs, [])

/-- Separation of two playlist entries: neither id-followed-by-dot is a
prefix of the other, so neither entry's downloaded files can be picked up
by the other entry's audio lookup. Distinct real YouTube ids (which
contain no dots) always satisfy this. -/
def entSep : Option Entry → Option Entry → Prop
  | some e1, some e2 =>
    strStartsWith (e1.id ++ ".") (e2.id ++ ".") = false ∧
    strStartsWith (e2.id ++ ".") (e1.id ++ ".") = false
  | _, _ => True

instance : ∀ a b : Option Entry, Decidable (entSep a b)
  | some _, some _ =>
    inferInstanceAs (Decidable (_ = false ∧ _ = false))
  | none, _ => isTrue trivial
  | some _, none => isTrue trivial

/-- All files a download call creates for an entry are named by the
entry's id followed by a dot — yt-dlp's output template
`%(id)s.%(ext)s`. -/
def entNamesOk (c : FetchCollab) : Option Entry → Prop
  | none => True
  | some e =>
    match c.dl e with
    | none => True
    | some files => ∀ f ∈ files, strStartsWith (e.id ++ ".") f = true

instance (c : FetchCollab) (oe : Option Entry) : Decidable (entNamesOk c oe) :=
  match oe with
  | none => isTrue trivial
  | some e =>
    match hdl : c.dl e with
    | none => isTrue (by simp [entNamesOk, hdl])
    | some files =>
      decidable_of_iff (∀ f ∈ files, strStartsWith (e.id ++ ".") f = true)
        (by simp [entNamesOk, hdl])

def dlNamesById (c : FetchCollab) (es : List (Option Entry)) : Prop :=
  ∀ oe ∈ es, entNamesOk c oe

instance (c : FetchCollab) (es : List (Option Entry)) : Decidable (dlNamesById c es) :=
  inferInstanceAs (Decidable (∀ oe ∈ es, entNamesOk c oe))

/-! ## Concrete fixtures used by witnesses and counterexamples -/

/-- The empty `data/` tree. -/
def fs0 : FS := { audio := [], transcripts := [], summaries := [], metadata := [] }

def exEntry : Entry :=
  { id := "vid1", title := some "T", webpage_url := some "u", duration := some 10 }

/-- A fetcher collaborator resolving one entry whose download produces the
expected mp3. -/
def exFetch : FetchCollab :=
  { extract := fun _ => [some exEntry], dl := fun e => some [e.id ++ ".mp3"] }

/-- A fetcher collaborator whose download leaves an `.m4a` instead of the
expected `.mp3` (codec mismatch), exercising the prefix fallback. -/
def exFetchM4a : FetchCollab :=
  { extract := fun _ => [some exEntry], dl := fun e => some [e.id ++ ".m4a"] }

/-- A speech-recognition collaborator that always succeeds with an empty
segment list. -/
def exTrans : TransCollab := { res := fun _ => [], fail := fun _ => none }

/-- A speech-recognition collaborator whose JSON write always raises. -/
def exTransJfail : TransCollab :=
  { res := fun _ => [], fail := fun _ => some TFail.atWriteJson }

def exFSmp3 : FS :=
  { audio := ["b.mp3", "a.mp3"], transcripts := [], summaries := [],
    metadata := [("a", [("video_id", JVal.str "a"),
      ("audio_path", JVal.str "data/audio/a.mp3")])] }

def exFSm4a : FS :=
  { audio := ["abc.m4a"], transcripts := [], summaries := [], metadata := [] }

def exFStxt : FS :=
  { audio := ["x.mp3"], transcripts := [("x.txt", "hello")], summaries := [],
    metadata := [] }

/-- A 120-character transcript (above the 100-character threshold). -/
def exLong : String := String.mk (List.replicate 120 'a')

/-- A 12-character transcript (below the 100-character threshold). -/
def exShort : String := "hi there pal"

def exFSsumm : FS :=
  { audio := [], transcripts := [("a.txt", exLong), ("b.txt", exShort)],
    summaries := [],
    metadata := [("a", [("video_id", JVal.str "a"),
      ("audio_path", JVal.str "data/audio/a.mp3"),
      ("transcript_path", JVal.str "data/transcripts/a.txt")])] }

/-- A summarization collaborator whose abstractive pipeline initialized. -/
def exSumm : SummCollab :=
  { initFails := false, chunkSumm := fun _ => "S",
    sentences := fun _ => ["s1", "s2"], fail := fun _ => false }

/-- A summarization collaborator whose abstractive pipeline failed to
initialize, forcing the extractive path for the whole run. -/
def exSummExt : SummCollab :=
  { initFails := true, chunkSumm := fun _ => "S",
    sentences := fun _ => ["s1", "s2"], fail := fun _ => false }

/-- A 12000-character transcript, exactly 3 chunks of 5000. -/
def exText12k : String := String.mk (List.replicate 12000 'a')

/-! ## Helper lemmas -/

theorem charListLe_total : ∀ a b : List Char, charListLe a b = true ∨ charListLe b a = true
  | [], _ => Or.inl rfl
  | _ :: _, [] => Or.inr rfl
  | a :: as, b :: bs => by
    by_cases hab : a = b
    · subst hab
      simpa [charListLe] using charListLe_total as bs
    · rcases lt_trichotomy a b with h | h | h
      · exact Or.inl (by simp [charListLe, hab, h])
      · exact absurd h hab
      · refine Or.inr ?_
        have hba : ¬ b = a := fun e => hab e.symm
        simp [charListLe, hba, h]

theorem charListLe_trans : ∀ a b c : List Char,
    charListLe a b = true → charListLe b c = true → charListLe a c = true
  | [], _, _, _, _ => rfl
  | _ :: _, [], _, h, _ => by simp [charListLe] at h
  | _ :: _, _ :: _, [], _, h => by simp [charListLe] at h
  | a :: as, b :: bs, c :: cs, h1, h2 => by
    by_cases hab : a = b <;> by_cases hbc : b = c
    · subst hab; subst hbc
      simp only [charListLe, if_pos rfl] at h1 h2 ⊢
      exact charListLe_trans as bs cs h1 h2
    · subst hab
      simpa [charListLe, hbc] using h2
    · subst hbc
      simpa [charListLe, hab] using h1
    · simp only [charListLe, if_neg hab] at h1
      simp only [charListLe, if_neg hbc] at h2
      have hac : a < c := lt_trans (of_decide_eq_true h1) (of_decide_eq_true h2)
      have : ¬ a = c := ne_of_lt hac
      simp [charListLe, this, hac]

instance : IsTotal String (fun a b => strLe a b = true) :=
  ⟨fun a b => charListLe_total a.toList b.toList⟩

instance : IsTrans String (fun a b => strLe a b = true) :=
  ⟨fun a b c => charListLe_trans a.toList b.toList c.toList⟩

theorem mem_sortNames {l : List String} {a : String} : a ∈ sortNames l ↔ a ∈ l :=
  (List.perm_insertionSort _ l).mem_iff

theorem sorted_sortNames (l : List String) :
    List.Sorted (fun a b => strLe a b = true) (sortNames l) :=
  List.sorted_insertionSort _ l

theorem getA_putA_self {α : Type} (l : List (String × α)) (k : String) (v : α) :
    getA (putA l k v) k = some v := by
  induction l with
  | nil => simp [putA, getA]
  | cons h t ih =>
    by_cases hk : h.1 = k
    · simp [putA, hk, getA]
    · simp [putA, hk, getA, ih]

theorem getA_putA_ne {α : Type} (l : List (String × α)) (k k' : String) (v : α)
    (h : k' ≠ k) : getA (putA l k v) k' = getA l k' := by
  induction l with
  | nil =>
    simp only [putA, getA]
    rw [if_neg (fun e => h e.symm)]
  | cons hd t ih =>
    obtain ⟨k1, v1⟩ := hd
    by_cases hk : k1 = k
    · simp only [putA, if_pos hk, getA]
      have hne : ¬ k1 = k' := fun e => h (e.symm.trans hk)
      rw [if_neg hne, if_neg hne]
    · simp only [putA, if_neg hk, getA]
      by_cases hk' : k1 = k'
      · rw [if_pos hk', if_pos hk']
      · rw [if_neg hk', if_neg hk', ih]

theorem putA_eq_self {α : Type} (l : List (String × α)) (k : String) (v : α)
    (h : getA l k = some v) : putA l k v = l := by
  induction l with
  | nil => simp [getA] at h
  | cons hd t ih =>
    obtain ⟨k1, v1⟩ := hd
    by_cases hk : k1 = k
    · simp only [getA, if_pos hk] at h
      injection h with h
      simp [putA, hk, h]
    · simp only [getA, if_neg hk] at h
      simp [putA, hk, ih h]

theorem getA_putA_isSome {α : Type} (l : List (String × α)) (k k' : String) (v : α)
    (h : (getA l k').isSome) : (getA (putA l k v) k').isSome := by
  by_cases hk : k' = k
  · subst hk; simp [getA_putA_self]
  · rwa [getA_putA_ne _ _ _ _ hk]

theorem mem_insertName_of_mem {l : List String} {m : String} (n : String)
    (h : m ∈ l) : m ∈ insertName l n := by
  unfold insertName
  split <;> simp [h]

theorem self_mem_insertName (l : List String) (n : String) : n ∈ insertName l n := by
  unfold insertName
  split <;> simp_all

theorem insertName_eq_of_mem {l : List String} {n : String} (h : n ∈ l) :
    insertName l n = l := by
  simp [insertName, h]

theorem dlInsert_append (l files : List String) :
    ∃ extra, dlInsert l files = l ++ extra ∧ ∀ x ∈ extra, x ∈ files := by
  induction files generalizing l with
  | nil => exact ⟨[], by simp [dlInsert], by simp⟩
  | cons f fl ih =>
    obtain ⟨extra, he, hmem⟩ := ih (insertName l f)
    by_cases hf : f ∈ l
    · refine ⟨extra, ?_, fun x hx => List.mem_cons_of_mem _ (hmem x hx)⟩
      show dlInsert (insertName l f) fl = l ++ extra
      rwa [insertName_eq_of_mem hf] at he ⊢
    · have hins : insertName l f = l ++ [f] := by simp [insertName, hf]
      refine ⟨f :: extra, ?_, ?_⟩
      · show dlInsert (insertName l f) fl = l ++ f :: extra
        rw [hins] at he
        rw [hins, he, List.append_assoc]
        rfl
      · intro x hx
        rcases List.mem_cons.mp hx with h | h
        · simp [h]
        · exact List.mem_cons_of_mem _ (hmem x h)

theorem mem_dlInsert_of_mem {l : List String} {m : String} (files : List String)
    (h : m ∈ l) : m ∈ dlInsert l files := by
  induction files generalizing l with
  | nil => exact h
  | cons f fl ih => exact ih (mem_insertName_of_mem f h)

theorem mem_dlInsert_of_mem_files {l files : List String} {f : String}
    (h : f ∈ files) : f ∈ dlInsert l files := by
  induction files generalizing l with
  | nil => simp at h
  | cons g fl ih =>
    rcases List.mem_cons.mp h with h | h
    · subst h
      exact mem_dlInsert_of_mem fl (self_mem_insertName l f)
    · exact ih h

theorem dlInsert_eq_of_subset {l files : List String}
    (h : ∀ f ∈ files, f ∈ l) : dlInsert l files = l := by
  induction files with
  | nil => rfl
  | cons f fl ih =>
    have : insertName l f = l := insertName_eq_of_mem (h f (by simp))
    show dlInsert (insertName l f) fl = l
    rw [this]
    exact ih fun g hg => h g (List.mem_cons_of_mem _ hg)

theorem strStartsWith_iff {p s : String} :
    strStartsWith p s = true ↔ p.toList <+: s.toList := by
  unfold strStartsWith
  exact List.isPrefixOf_iff_prefix

theorem strStartsWith_append (p q : String) : strStartsWith p (p ++ q) = true := by
  rw [strStartsWith_iff]
  refine ⟨q.toList, ?_⟩
  simp [String.toList, String.data_append]

theorem strStartsWith_self (p : String) : strStartsWith p p = true := by
  rw [strStartsWith_iff]

theorem strStartsWith_total {p q s : String}
    (hp : strStartsWith p s = true) (hq : strStartsWith q s = true) :
    strStartsWith p q = true ∨ strStartsWith q p = true := by
  rw [strStartsWith_iff] at hp hq ⊢
  rw [strStartsWith_iff]
  exact List.prefix_or_prefix_of_prefix hp hq

theorem string_toList_inj {s t : String} (h : s.toList = t.toList) : s = t := by
  cases s; cases t
  simp only [String.toList] at h
  rw [h]

theorem string_append_right_inj {x a b : String} (h : x ++ a = x ++ b) : a = b := by
  apply string_toList_inj
  have : (x ++ a).toList = (x ++ b).toList := by rw [h]
  simp only [String.toList, String.data_append] at this
  exact List.append_cancel_left this

theorem foldl_const {α β : Type} (f : β → α → β) (s : β) (ns : List α)
    (h : ∀ a ∈ ns, f s a = s) : ns.foldl f s = s := by
  induction ns with
  | nil => rfl
  | cons a t ih =>
    rw [List.foldl_cons, h a (by simp)]
    exact ih fun x hx => h x (List.mem_cons_of_mem _ hx)

theorem foldl_transStep_fst (c : TransCollab) (ns : List String) (fs : FS)
    (log : List String) :
    (ns.foldl (transStep c) (fs, log)).1 = ns.foldl (transStepFS c) fs := by
  induction ns generalizing fs log with
  | nil => rfl
  | cons a t ih =>
    rw [List.foldl_cons, List.foldl_cons]
    exact ih _ _

theorem transStepFS_audio (c : TransCollab) (fs : FS) (a : String) :
    (transStepFS c fs a).audio = fs.audio := by
  rcases hfail : c.fail a with _ | k
  · by_cases htxt : (getA fs.transcripts (stem a ++ ".txt")).isSome
    · simp [transStepFS, htxt]
    · rcases hm : getA fs.metadata (stem a) with _ | m <;>
        simp [transStepFS, htxt, hfail, hm]
  · cases k <;> by_cases htxt : (getA fs.transcripts (stem a ++ ".txt")).isSome <;>
      simp [transStepFS, htxt, hfail]

theorem transStepFS_txt_mono (c : TransCollab) (fs : FS) (a k : String)
    (h : (getA fs.transcripts k).isSome) :
    (getA (transStepFS c fs a).transcripts k).isSome := by
  rcases hfail : c.fail a with _ | kk
  · by_cases htxt : (getA fs.transcripts (stem a ++ ".txt")).isSome
    · simpa [transStepFS, htxt] using h
    · rcases hm : getA fs.metadata (stem a) with _ | m <;>
        · simp only [transStepFS, htxt, hfail, hm]
          simp only [Bool.false_eq_true, if_false]
          exact getA_putA_isSome _ _ _ _ (getA_putA_isSome _ _ _ _ h)
  · cases kk <;> by_cases htxt : (getA fs.transcripts (stem a ++ ".txt")).isSome <;>
      first
        | simpa [transStepFS, htxt, hfail] using h
        | (simp only [transStepFS, htxt, hfail]
           simp only [Bool.false_eq_true, if_false]
           exact getA_putA_isSome _ _ _ _ h)

theorem foldl_transStepFS_txt_mono (c : TransCollab) (ns : List String) (fs : FS)
    (k : String) (h : (getA fs.transcripts k).isSome) :
    (getA ((ns.foldl (transStepFS c) fs)).transcripts k).isSome := by
  induction ns generalizing fs with
  | nil => exact h
  | cons b t ih => exact ih _ (transStepFS_txt_mono _ _ _ _ h)

theorem foldl_transStepFS_audio (c : TransCollab) (ns : List String) (fs : FS) :
    ((ns.foldl (transStepFS c) fs)).audio = fs.audio := by
  induction ns generalizing fs with
  | nil => rfl
  | cons b t ih => rw [List.foldl_cons, ih, transStepFS_audio]

theorem transStepFS_of_txt (c : TransCollab) (fs : FS) (a : String)
    (h : (getA fs.transcripts (stem a ++ ".txt")).isSome) :
    transStepFS c fs a = fs := by
  unfold transStepFS
  simp only [h, if_pos]

theorem transStepFS_of_failT (c : TransCollab) (fs : FS) (a : String)
    (h : c.fail a = some TFail.atTranscribe ∨ c.fail a = some TFail.atWriteTxt) :
    transStepFS c fs a = fs := by
  unfold transStepFS
  rcases h with h | h <;> simp [h]

theorem txt_ne_json (x : String) : (x ++ ".txt") ≠ (x ++ ".json") := by
  intro h
  have := string_append_right_inj h
  exact absurd this (by decide)

theorem transStepFS_txt_after (c : TransCollab) (fs : FS) (a : String)
    (h : c.fail a = none ∨ c.fail a = some TFail.atWriteJson) :
    (getA (transStepFS c fs a).transcripts (stem a ++ ".txt")).isSome := by
  by_cases htxt : (getA fs.transcripts (stem a ++ ".txt")).isSome
  · rw [transStepFS_of_txt c fs a htxt]; exact htxt
  · rcases h with h | h
    · rcases hmeta : getA fs.metadata (stem a) with _ | m
      · simp only [transStepFS, h, htxt, hmeta]
        simp [getA_putA_ne _ _ _ _ (txt_ne_json (stem a)), getA_putA_self]
      · simp only [transStepFS, h, htxt, hmeta]
        simp [getA_putA_ne _ _ _ _ (txt_ne_json (stem a)), getA_putA_self]
    · simp only [transStepFS, h, htxt]
      simp [getA_putA_self]

theorem trans_dichotomy (c : TransCollab) (ns : List String) (fs : FS) (a : String)
    (ha : a ∈ ns) :
    (getA ((ns.foldl (transStepFS c) fs)).transcripts (stem a ++ ".txt")).isSome ∨
    c.fail a = some TFail.atTranscribe ∨ c.fail a = some TFail.atWriteTxt := by
  induction ns generalizing fs with
  | nil => simp at ha
  | cons b t ih =>
    rw [List.foldl_cons]
    rcases List.mem_cons.mp ha with rfl | hat
    · rcases hfail : c.fail a with _ | k
      · exact Or.inl (foldl_transStepFS_txt_mono _ _ _ _
          (transStepFS_txt_after c fs a (Or.inl hfail)))
      · cases k with
        | atTranscribe => exact Or.inr (Or.inl rfl)
        | atWriteTxt => exact Or.inr (Or.inr rfl)
        | atWriteJson =>
          exact Or.inl (foldl_transStepFS_txt_mono _ _ _ _
            (transStepFS_txt_after c fs a (Or.inr hfail)))
    · exact ih _ hat

theorem transMain_fst_idem (c : TransCollab) (fs : FS) :
    (transMain c (transMain c fs).1).1 = (transMain c fs).1 := by
  unfold transMain
  rw [foldl_transStep_fst, foldl_transStep_fst]
  set F := (audioList fs).foldl (transStepFS c) fs with hF
  have haudio : audioList F = audioList fs := by
    unfold audioList
    rw [hF, foldl_transStepFS_audio]
  rw [haudio]
  apply foldl_const
  intro a ha
  rcases trans_dichotomy c (audioList fs) fs a ha with h | h
  · exact transStepFS_of_txt c F a h
  · exact transStepFS_of_failT c F a h

theorem foldl_summStep_fst (c : SummCollab) (ue : Bool) (ns : List String) (fs : FS)
    (log : List (String × Strategy)) :
    (ns.foldl (summStep c ue) (fs, log)).1 = ns.foldl (summStepFS c ue) fs := by
  induction ns generalizing fs log with
  | nil => rfl
  | cons a t ih =>
    rw [List.foldl_cons, List.foldl_cons]
    exact ih _ _

theorem summStepFS_transcripts (c : SummCollab) (ue : Bool) (fs : FS) (t : String) :
    (summStepFS c ue fs t).transcripts = fs.transcripts := by
  by_cases hout : (getA fs.summaries (stem t ++ "_summary.txt")).isSome
  · simp [summStepFS, hout]
  · rcases hraw : getA fs.transcripts t with _ | raw
    · simp [summStepFS, hout, hraw]
    · by_cases hlen : (pyStrip raw).length < 100
      · simp [summStepFS, hout, hraw, hlen]
      · rcases hfail : c.fail t with _ | _
        · rcases hm : getA fs.metadata (stem t) with _ | m <;>
            simp [summStepFS, hout, hraw, hlen, hfail, hm]
        · simp [summStepFS, hout, hraw, hlen, hfail]

theorem foldl_summStepFS_transcripts (c : SummCollab) (ue : Bool) (ns : List String)
    (fs : FS) : ((ns.foldl (summStepFS c ue) fs)).transcripts = fs.transcripts := by
  induction ns generalizing fs with
  | nil => rfl
  | cons b t ih => rw [List.foldl_cons, ih, summStepFS_transcripts]

theorem summStepFS_out_mono (c : SummCollab) (ue : Bool) (fs : FS) (t k : String)
    (h : (getA fs.summaries k).isSome) :
    (getA (summStepFS c ue fs t).summaries k).isSome := by
  by_cases hout : (getA fs.summaries (stem t ++ "_summary.txt")).isSome
  · simpa [summStepFS, hout] using h
  · rcases hraw : getA fs.transcripts t with _ | raw
    · simpa [summStepFS, hout, hraw] using h
    · by_cases hlen : (pyStrip raw).length < 100
      · simpa [summStepFS, hout, hraw, hlen] using h
      · rcases hfail : c.fail t with _ | _
        · rcases hm : getA fs.metadata (stem t) with _ | m <;>
            · simp only [summStepFS, hout, hraw, hlen, hfail, hm]
              simp only [Bool.false_eq_true, if_false, if_neg hlen]
              exact getA_putA_isSome _ _ _ _ h
        · simpa [summStepFS, hout, hraw, hlen, hfail] using h

theorem foldl_summStepFS_out_mono (c : SummCollab) (ue : Bool) (ns : List String)
    (fs : FS) (k : String) (h : (getA fs.summaries k).isSome) :
    (getA ((ns.foldl (summStepFS c ue) fs)).summaries k).isSome := by
  induction ns generalizing fs with
  | nil => exact h
  | cons b t ih => exact ih _ (summStepFS_out_mono _ _ _ _ _ h)

theorem summStepFS_of_out (c : SummCollab) (ue : Bool) (fs : FS) (t : String)
    (h : (getA fs.summaries (stem t ++ "_summary.txt")).isSome) :
    summStepFS c ue fs t = fs := by
  simp [summStepFS, h]

theorem summStepFS_of_read_none (c : SummCollab) (ue : Bool) (fs : FS) (t : String)
    (h : getA fs.transcripts t = none) : summStepFS c ue fs t = fs := by
  by_cases hout : (getA fs.summaries (stem t ++ "_summary.txt")).isSome
  · simp [summStepFS, hout]
  · simp [summStepFS, hout, h]

theorem summStepFS_of_short (c : SummCollab) (ue : Bool) (fs : FS) (t raw : String)
    (hraw : getA fs.transcripts t = some raw) (hlen : (pyStrip raw).length < 100) :
    summStepFS c ue fs t = fs := by
  by_cases hout : (getA fs.summaries (stem t ++ "_summary.txt")).isSome
  · simp [summStepFS, hout]
  · simp [summStepFS, hout, hraw, hlen]

theorem summStepFS_of_fail (c : SummCollab) (ue : Bool) (fs : FS) (t : String)
    (hfail : c.fail t = true) : summStepFS c ue fs t = fs := by
  by_cases hout : (getA fs.summaries (stem t ++ "_summary.txt")).isSome
  · simp [summStepFS, hout]
  · rcases hraw : getA fs.transcripts t with _ | raw
    · simp [summStepFS, hout, hraw]
    · by_cases hlen : (pyStrip raw).length < 100
      · simp [summStepFS, hout, hraw, hlen]
      · simp [summStepFS, hout, hraw, hlen, hfail]

theorem summStepFS_out_after (c : SummCollab) (ue : Bool) (fs : FS) (t raw : String)
    (hraw : getA fs.transcripts t = some raw) (hlen : ¬ (pyStrip raw).length < 100)
    (hfail : c.fail t = false) :
    (getA (summStepFS c ue fs t).summaries (stem t ++ "_summary.txt")).isSome := by
  by_cases hout : (getA fs.summaries (stem t ++ "_summary.txt")).isSome
  · rw [summStepFS_of_out c ue fs t hout]
    exact hout
  · rcases hm : getA fs.metadata (stem t) with _ | m <;>
      simp [summStepFS, hout, hraw, hlen, hfail, hm, getA_putA_self]

theorem summ_dichotomy (c : SummCollab) (ue : Bool) (ns : List String) (fs : FS)
    (t : String) (ht : t ∈ ns) :
    (getA ((ns.foldl (summStepFS c ue) fs)).summaries (stem t ++ "_summary.txt")).isSome ∨
    getA fs.transcripts t = none ∨
    (∃ raw, getA fs.transcripts t = some raw ∧ (pyStrip raw).length < 100) ∨
    c.fail t = true := by
  induction ns generalizing fs with
  | nil => simp at ht
  | cons b bs ih =>
    rw [List.foldl_cons]
    rcases List.mem_cons.mp ht with rfl | hbt
    · rcases hraw : getA fs.transcripts t with _ | raw
      · exact Or.inr (Or.inl rfl)
      · by_cases hlen : (pyStrip raw).length < 100
        · exact Or.inr (Or.inr (Or.inl ⟨raw, rfl, hlen⟩))
        · rcases hfail : c.fail t with _ | _
          · exact Or.inl (foldl_summStepFS_out_mono _ _ _ _ _
              (summStepFS_out_after c ue fs t raw hraw hlen hfail))
          · exact Or.inr (Or.inr (Or.inr rfl))
    · rcases ih (summStepFS c ue fs b) hbt with h | h | h | h
      · exact Or.inl h
      · rw [summStepFS_transcripts] at h
        exact Or.inr (Or.inl h)
      · rw [summStepFS_transcripts] at h
        exact Or.inr (Or.inr (Or.inl h))
      · exact Or.inr (Or.inr (Or.inr h))

theorem summMain_fst_idem (c : SummCollab) (fs : FS) :
    (summMain c (summMain c fs).1).1 = (summMain c fs).1 := by
  unfold summMain
  rw [foldl_summStep_fst, foldl_summStep_fst]
  set F := (transcriptList fs).foldl (summStepFS c c.initFails) fs with hF
  have htl : transcriptList F = transcriptList fs := by
    unfold transcriptList
    rw [hF, foldl_summStepFS_transcripts]
  rw [htl]
  apply foldl_const
  intro t ht
  have htr : F.transcripts = fs.transcripts := by
    rw [hF, foldl_summStepFS_transcripts]
  rcases summ_dichotomy c c.initFails (transcriptList fs) fs t ht with h | h | h | h
  · exact summStepFS_of_out _ _ _ _ h
  · exact summStepFS_of_read_none _ _ _ _ (by rw [htr]; exact h)
  · obtain ⟨raw, hraw, hlen⟩ := h
    exact summStepFS_of_short _ _ _ _ raw (by rw [htr]; exact hraw) hlen
  · exact summStepFS_of_fail _ _ _ _ h

theorem foldl_downloadStep_fst (c : FetchCollab) (es : List (Option Entry)) (fs : FS)
    (res : List MetaRec) :
    (es.foldl (downloadStep c) (fs, res)).1 = es.foldl (downloadStepFS c) fs := by
  induction es generalizing fs res with
  | nil => rfl
  | cons oe rest ih =>
    rw [List.foldl_cons, List.foldl_cons]
    exact ih _ _

theorem downloadStepFS_dlfail (c : FetchCollab) (fs : FS) (e : Entry)
    (h : c.dl e = none) : downloadStepFS c fs (some e) = fs := by
  simp [downloadStepFS, h]

theorem downloadStepFS_success (c : FetchCollab) (fs : FS) (e : Entry)
    (files : List String) (h : c.dl e = some files) :
    downloadStepFS c fs (some e) =
      { fs with audio := dlInsert fs.audio files,
                metadata := (putA fs.metadata e.id
                  (downloadMeta (dlInsert fs.audio files) e)) } := by
  simp [downloadStepFS, h]

theorem fetch_audio_decomp (c : FetchCollab) (es : List (Option Entry)) (fs : FS) :
    ∃ extra, (es.foldl (downloadStepFS c) fs).audio = fs.audio ++ extra ∧
      ∀ x ∈ extra, ∃ e files, some e ∈ es ∧ c.dl e = some files ∧ x ∈ files := by
  induction es generalizing fs with
  | nil => exact ⟨[], by simp, by simp⟩
  | cons oe rest ih =>
    rw [List.foldl_cons]
    rcases oe with _ | e
    · obtain ⟨extra, he, hm⟩ := ih fs
      refine ⟨extra, he, fun x hx => ?_⟩
      obtain ⟨e, files, hmem, hdl, hf⟩ := hm x hx
      exact ⟨e, files, List.mem_cons_of_mem _ hmem, hdl, hf⟩
    · rcases hdl : c.dl e with _ | files
      · rw [downloadStepFS_dlfail c fs e hdl]
        obtain ⟨extra, he, hm⟩ := ih fs
        refine ⟨extra, he, fun x hx => ?_⟩
        obtain ⟨e', files, hmem, hdl', hf⟩ := hm x hx
        exact ⟨e', files, List.mem_cons_of_mem _ hmem, hdl', hf⟩
      · rw [downloadStepFS_success c fs e files hdl]
        obtain ⟨extra1, he1, hm1⟩ := dlInsert_append fs.audio files
        obtain ⟨extra2, he2, hm2⟩ := ih
          { fs with audio := dlInsert fs.audio files,
                    metadata := (putA fs.metadata e.id
                      (downloadMeta (dlInsert fs.audio files) e)) }
        refine ⟨extra1 ++ extra2, ?_, ?_⟩
        · rw [he2]
          show dlInsert fs.audio files ++ extra2 = _
          rw [he1, List.append_assoc]
        · intro x hx
          rcases List.mem_append.mp hx with hx | hx
          · exact ⟨e, files, List.mem_cons_self _ _, hdl, hm1 x hx⟩
          · obtain ⟨e', files', hmem, hdl', hf⟩ := hm2 x hx
            exact ⟨e', files', List.mem_cons_of_mem _ hmem, hdl', hf⟩

theorem downloadStepFS_metadata_other (c : FetchCollab) (fs : FS) (oe : Option Entry)
    (k : String) (h : ∀ e, oe = some e → e.id ≠ k) :
    getA (downloadStepFS c fs oe).metadata k = getA fs.metadata k := by
  rcases oe with _ | e
  · rfl
  · rcases hdl : c.dl e with _ | files
    · rw [downloadStepFS_dlfail c fs e hdl]
    · rw [downloadStepFS_success c fs e files hdl]
      exact getA_putA_ne _ _ _ _ (Ne.symm (h e rfl))

theorem foldl_downloadStepFS_metadata_other (c : FetchCollab)
    (es : List (Option Entry)) (fs : FS) (k : String)
    (h : ∀ e, some e ∈ es → e.id ≠ k) :
    getA ((es.foldl (downloadStepFS c) fs)).metadata k = getA fs.metadata k := by
  induction es generalizing fs with
  | nil => rfl
  | cons oe rest ih =>
    rw [List.foldl_cons,
      ih _ (fun e he => h e (List.mem_cons_of_mem _ he)),
      downloadStepFS_metadata_other c fs oe k
        (fun e he => h e (he ▸ List.mem_cons_self _ _))]

theorem strStartsWith_mp3 (x : String) :
    strStartsWith (x ++ ".") (x ++ ".mp3") = true := by
  have h : (x ++ ".") ++ "mp3" = x ++ ".mp3" := by
    rw [String.append_assoc]
    have hd : ("." ++ "mp3" : String) = ".mp3" := by decide
    rw [hd]
  rw [← h]
  exact strStartsWith_append _ _

theorem entNamesOk_spec {c : FetchCollab} {oe : Option Entry} (H : entNamesOk c oe)
    {e : Entry} {files : List String} {f : String} (he : oe = some e)
    (hdl : c.dl e = some files) (hf : f ∈ files) :
    strStartsWith (e.id ++ ".") f = true := by
  subst he
  have H' : ∀ g ∈ files, strStartsWith (e.id ++ ".") g = true := by
    simpa [entNamesOk, hdl] using H
  exact H' f hf

theorem download_run2 (c : FetchCollab) (es : List (Option Entry)) (fs : FS)
    (H1 : dlNamesById c es) (H2 : es.Pairwise entSep) :
    es.foldl (downloadStepFS c) (es.foldl (downloadStepFS c) fs) =
      es.foldl (downloadStepFS c) fs := by
  induction es generalizing fs with
  | nil => rfl
  | cons oe rest ih =>
    obtain ⟨hrel, hrest⟩ := List.pairwise_cons.mp H2
    have H1rest : dlNamesById c rest := fun oe' h' => H1 oe' (List.mem_cons_of_mem _ h')
    rw [List.foldl_cons, List.foldl_cons]
    have key : downloadStepFS c (rest.foldl (downloadStepFS c)
        (downloadStepFS c fs oe)) oe = rest.foldl (downloadStepFS c)
        (downloadStepFS c fs oe) := by
      set fs1 := downloadStepFS c fs oe with hfs1
      set F := rest.foldl (downloadStepFS c) fs1 with hFdef
      rcases oe with _ | e
      · rfl
      · rcases hdl : c.dl e with _ | files
        · exact downloadStepFS_dlfail c F e hdl
        · obtain ⟨extra, hdecomp, hextra⟩ := fetch_audio_decomp c rest fs1
          -- every file of this entry is already present in the final audio
          have hfiles_sub : ∀ f ∈ files, f ∈ F.audio := by
            intro f hf
            rw [hdecomp]
            have : f ∈ fs1.audio := by
              rw [hfs1, downloadStepFS_success c fs e files hdl]
              exact mem_dlInsert_of_mem_files hf
            exact List.mem_append_left _ this
          have haud : dlInsert F.audio files = F.audio :=
            dlInsert_eq_of_subset hfiles_sub
          -- no file created by another entry matches this entry's prefix
          have hextra_nomatch : ∀ x ∈ extra,
              strStartsWith (e.id ++ ".") x = false := by
            intro x hx
            obtain ⟨e', files', hmem', hdl', hf'⟩ := hextra x hx
            by_contra hcon
            have hxpre : strStartsWith (e.id ++ ".") x = true := by
              revert hcon
              cases strStartsWith (e.id ++ ".") x <;> simp
            have hxpre' : strStartsWith (e'.id ++ ".") x = true :=
              entNamesOk_spec (H1 _ (List.mem_cons_of_mem _ hmem')) rfl hdl' hf'
            have hsep := hrel _ hmem'
            rcases strStartsWith_total hxpre hxpre' with h | h
            · rw [hsep.1] at h
              exact Bool.false_ne_true h
            · rw [hsep.2] at h
              exact Bool.false_ne_true h
          have hfound : downloadFound F.audio e = downloadFound fs1.audio e := by
            unfold downloadFound
            have hmp3 : ((e.id ++ ".mp3") ∈ F.audio) ↔ ((e.id ++ ".mp3") ∈ fs1.audio) := by
              rw [hdecomp]
              constructor
              · intro h
                rcases List.mem_append.mp h with h | h
                · exact h
                · exact absurd (strStartsWith_mp3 e.id)
                    (by rw [hextra_nomatch _ h]; exact fun e => Bool.false_ne_true e)
              · exact List.mem_append_left _
            have hfe : extra.filter (fun n => strStartsWith (e.id ++ ".") n) = [] :=
              List.filter_eq_nil_iff.mpr (fun x hx => by simp [hextra_nomatch x hx])
            have hfilter : F.audio.filter (fun n => strStartsWith (e.id ++ ".") n) =
                fs1.audio.filter (fun n => strStartsWith (e.id ++ ".") n) := by
              rw [hdecomp, List.filter_append, hfe, List.append_nil]
            by_cases hmem : (e.id ++ ".mp3") ∈ fs1.audio
            · rw [if_pos (hmp3.mpr hmem), if_pos hmem]
            · rw [if_neg (fun h => hmem (hmp3.mp h)), if_neg hmem, hfilter]
          have hmeta_pres : getA F.metadata e.id =
              some (downloadMeta fs1.audio e) := by
            rw [hFdef]
            rw [foldl_downloadStepFS_metadata_other c rest fs1 e.id ?hne]
            case hne =>
              intro e' he'
              have hsep := hrel _ he'
              intro hid
              have : strStartsWith (e.id ++ ".") (e'.id ++ ".") = true := by
                rw [hid]
                exact strStartsWith_self _
              rw [hsep.1] at this
              exact Bool.false_ne_true this
            rw [hfs1, downloadStepFS_success c fs e files hdl]
            show getA (putA fs.metadata e.id _) e.id = _
            rw [getA_putA_self]
          have hmeta_eq : downloadMeta F.audio e = downloadMeta fs1.audio e := by
            unfold downloadMeta
            rw [hfound]
          rw [downloadStepFS_success c F e files hdl, haud, hmeta_eq,
            putA_eq_self _ _ _ hmeta_pres]
    rw [key]
    exact ih _ H1rest hrest

theorem pyRange_unfold (start stop step : Nat) (h : start < stop) (hs : 0 < step) :
    pyRange start stop step = start :: pyRange (start + step) stop step := by
  rw [pyRange]
  simp [h, hs]

theorem pyRange_nil (start stop step : Nat) (h : ¬ start < stop) :
    pyRange start stop step = [] := by
  rw [pyRange]
  simp [h]

theorem pyRange_shift (step k : Nat) (hs : 0 < step) :
    ∀ n s stop, stop - s ≤ n →
      pyRange (s + k) (stop + k) step = (pyRange s stop step).map (· + k)
  | 0, s, stop, hn => by
    have h1 : ¬ s < stop := by omega
    have h2 : ¬ s + k < stop + k := by omega
    rw [pyRange_nil _ _ _ h1, pyRange_nil _ _ _ h2]
    rfl
  | n + 1, s, stop, hn => by
    by_cases h : s < stop
    · rw [pyRange_unfold _ _ _ h hs, pyRange_unfold _ _ _ (by omega) hs,
        List.map_cons]
      congr 1
      have he : s + k + step = (s + step) + k := by omega
      rw [he]
      exact pyRange_shift step k hs n (s + step) stop (by omega)
    · rw [pyRange_nil _ _ _ h, pyRange_nil _ _ _ (by omega)]
      rfl

theorem chunksOfAux_nil (n fuel : Nat) : chunksOfAux n fuel [] = [] := by
  cases fuel <;> rfl

theorem chunksOfAux_eq_spec (n : Nat) (hn : 0 < n) :
    ∀ fuel (l : List Char), l.length ≤ fuel →
      chunksOfAux n fuel l = (pyRange 0 l.length n).map (fun i => (l.drop i).take n)
  | 0, l, hl => by
    have hnil : l = [] := List.eq_nil_of_length_eq_zero (by omega)
    subst hnil
    rw [pyRange_nil _ _ _ (by omega)]
    rfl
  | fuel + 1, l, hl => by
    cases l with
    | nil =>
      rw [List.length_nil, pyRange_nil _ _ _ (by omega), chunksOfAux_nil]
      rfl
    | cons a as =>
      show (a :: as).take n :: chunksOfAux n fuel ((a :: as).drop n) = _
      have hlen : 0 < (a :: as).length := by simp
      rw [pyRange_unfold _ _ _ hlen hn, List.map_cons, List.drop_zero]
      congr 1
      rw [chunksOfAux_eq_spec n hn fuel ((a :: as).drop n)
        (by simp only [List.length_drop]; omega)]
      have hshift : pyRange (0 + n) ((a :: as).length - n + n) n =
          (pyRange 0 ((a :: as).length - n) n).map (· + n) :=
        pyRange_shift n n hn ((a :: as).length - n) 0 ((a :: as).length - n) le_rfl
      by_cases hnl : n ≤ (a :: as).length
      · have he : (a :: as).length - n + n = (a :: as).length := by omega
        rw [he] at hshift
        rw [List.length_drop, hshift, List.map_map]
        apply List.map_congr_left
        intro i _
        show (((a :: as).drop n).drop i).take n = ((a :: as).drop (i + n)).take n
        rw [List.drop_drop, Nat.add_comm]
      · have h1 : pyRange (0 + n) (a :: as).length n = [] :=
          pyRange_nil _ _ _ (by omega)
        have h2 : pyRange 0 ((a :: as).drop n).length n = [] := by
          apply pyRange_nil
          simp only [List.length_drop]
          omega
        rw [h1, h2]
        rfl

theorem pyChunks_eq_spec (cs : List Char) (n : Nat) (hn : 0 < n) :
    pyChunks cs n = pyChunksSpec cs n := by
  unfold pyChunks pyChunksSpec
  rw [if_neg (by omega)]
  exact chunksOfAux_eq_spec n hn cs.length cs le_rfl

theorem chunksOfAux_flatten (n : Nat) (hn : 0 < n) :
    ∀ fuel (l : List Char), l.length ≤ fuel → (chunksOfAux n fuel l).flatten = l
  | 0, l, hl => by
    have hnil : l = [] := List.eq_nil_of_length_eq_zero (by omega)
    subst hnil
    rfl
  | fuel + 1, l, hl => by
    cases l with
    | nil => rfl
    | cons a as =>
      show ((a :: as).take n :: chunksOfAux n fuel ((a :: as).drop n)).flatten = a :: as
      rw [List.flatten_cons, chunksOfAux_flatten n hn fuel _
        (by simp only [List.length_drop]; omega)]
      exact List.take_append_drop n (a :: as)

theorem chunksOfAux_length (n : Nat) (hn : 0 < n) :
    ∀ fuel (l : List Char), l ≠ [] → l.length ≤ fuel →
      (chunksOfAux n fuel l).length = (l.length + n - 1) / n
  | 0, l, hne, hl => by
    exact absurd (List.eq_nil_of_length_eq_zero (by omega)) hne
  | fuel + 1, l, hne, hl => by
    cases l with
    | nil => exact absurd rfl hne
    | cons a as =>
      show ((a :: as).take n :: chunksOfAux n fuel ((a :: as).drop n)).length = _
      by_cases hd : (a :: as).drop n = []
      · have hle : (a :: as).length ≤ n := by rwa [List.drop_eq_nil_iff] at hd
        rw [hd, chunksOfAux_nil]
        have h1 : (1 : Nat) ≤ (a :: as).length := by simp
        have he : (a :: as).length + n - 1 = ((a :: as).length - 1) + n := by omega
        rw [List.length_cons, List.length_nil]
        rw [show (a :: as).length = as.length + 1 from rfl] at hle he ⊢
        rw [he, Nat.add_div_right _ hn, Nat.div_eq_of_lt (by omega)]
      · have hlt : n < (a :: as).length := by
          by_contra hcon
          exact hd (List.drop_eq_nil_iff.mpr (by omega))
        rw [List.length_cons, chunksOfAux_length n hn fuel _ hd
          (by simp only [List.length_drop]; omega)]
        simp only [List.length_drop]
        have he1 : (a :: as).length - n + n - 1 = (a :: as).length - 1 := by omega
        have he2 : (a :: as).length + n - 1 = ((a :: as).length - 1) + n := by omega
        rw [he1, he2, Nat.add_div_right _ hn, Nat.add_comm]

theorem pyRange_12000 : pyRange 0 12000 5000 = [0, 5000, 10000] := by
  rw [pyRange_unfold _ _ _ (by omega) (by omega),
      pyRange_unfold _ _ _ (by omega) (by omega),
      pyRange_unfold _ _ _ (by omega) (by omega),
      pyRange_nil _ _ _ (by omega)]

theorem pyChunks_at_12000 (l : List Char) (h : l.length = 12000) :
    pyChunks l 5000 =
      [l.take 5000, (l.drop 5000).take 5000, (l.drop 10000).take 5000] := by
  rw [pyChunks_eq_spec l 5000 (by omega)]
  unfold pyChunksSpec
  rw [h, pyRange_12000]
  simp

theorem summStepLog_strat (ue : Bool) (fs : FS) (log : List (String × Strategy))
    (t : String) (p : String × Strategy) (hp : p ∈ summStepLog ue fs log t) :
    p ∈ log ∨ p.2 = (if ue then Strategy.extractive else Strategy.abstractive) := by
  unfold summStepLog at hp
  by_cases hout : (getA fs.summaries (stem t ++ "_summary.txt")).isSome
  · rw [if_pos hout] at hp
    exact Or.inl hp
  · rw [if_neg hout] at hp
    rcases hraw : getA fs.transcripts t with _ | raw
    · simp only [hraw] at hp
      exact Or.inl hp
    · simp only [hraw] at hp
      by_cases hlen : (pyStrip raw).length < 100
      · rw [if_pos hlen] at hp
        exact Or.inl hp
      · rw [if_neg hlen] at hp
        rcases List.mem_append.mp hp with h | h
        · exact Or.inl h
        · right
          rw [List.mem_singleton.mp h]

theorem foldl_summStep_log (c : SummCollab) (ue : Bool) (ns : List String)
    (st : FS × List (String × Strategy)) (p : String × Strategy)
    (hp : p ∈ (ns.foldl (summStep c ue) st).2) :
    p ∈ st.2 ∨ p.2 = (if ue then Strategy.extractive else Strategy.abstractive) := by
  induction ns generalizing st with
  | nil => exact Or.inl hp
  | cons t ts ih =>
    rw [List.foldl_cons] at hp
    rcases ih _ hp with h | h
    · exact summStepLog_strat ue st.1 st.2 t p h
    · exact Or.inr h

/-! ## Claims -/

/-- Claim C1, counterexample: the claim says every item is skipped on the
second run via an output-file existence check, for all three stages. The
Fetcher has no such check: with one successfully fetched item, the second
run over the resulting state still processes the item — it returns a
nonempty list of (re)written Metadata Records instead of skipping. -/
theorem claim_C1_counterexample :
    (download exFetch "u" (download exFetch "u" fs0).1).2 ≠ [] := by
  decide

/-- Claim C1, amended: running any stage twice in a row over the same
input directories produces no filesystem changes on the second run. For
the Transcriber and Summarizer this holds unconditionally (items whose
output file exists are skipped via the existence check; failed items are
re-attempted and, the deterministic collaborator failing again, change
nothing). The Fetcher skips nothing and unconditionally rewrites each
item's Metadata Record; its second run still changes no file provided
each download call names its files by the item's id (yt-dlp's
`%(id)s.%(ext)s` output template) and the resolved ids are pairwise
prefix-separated. -/
theorem claim_C1_amended :
    (∀ (c : TransCollab) (fs : FS),
      (transMain c (transMain c fs).1).1 = (transMain c fs).1) ∧
    (∀ (c : SummCollab) (fs : FS),
      (summMain c (summMain c fs).1).1 = (summMain c fs).1) ∧
    (∀ (c : FetchCollab) (url : String) (fs : FS),
      dlNamesById c (c.extract url) → (c.extract url).Pairwise entSep →
      (download c url (download c url fs).1).1 = (download c url fs).1) := by
  refine ⟨transMain_fst_idem, summMain_fst_idem, ?_⟩
  intro c url fs H1 H2
  unfold download
  rw [foldl_downloadStep_fst, foldl_downloadStep_fst]
  exact download_run2 c (c.extract url) fs H1 H2

/-- Claim C1, witness: the amended theorem applied to concrete runs of
each stage, discharging the Fetcher's file-naming and id-separation
hypotheses on a one-video playlist. -/
theorem claim_C1_witness :
    (transMain exTrans (transMain exTrans exFSmp3).1).1 =
      (transMain exTrans exFSmp3).1 ∧
    (summMain exSumm (summMain exSumm exFSsumm).1).1 =
      (summMain exSumm exFSsumm).1 ∧
    (download exFetch "u" (download exFetch "u" fs0).1).1 =
      (download exFetch "u" fs0).1 :=
  ⟨claim_C1_amended.1 exTrans exFSmp3,
   claim_C1_amended.2.1 exSumm exFSsumm,
   claim_C1_amended.2.2 exFetch "u" fs0 (by decide) (by decide)⟩

/-- Claim C2, counterexample: the claim says the Transcriber visits every
audio file stored by the Fetcher, including prefix-fallback files with a
non-mp3 extension. With `abc.m4a` present in the audio directory, the
enumeration is empty and a run attempts no item and changes nothing: the
m4a file is never visited. -/
theorem claim_C2_counterexample :
    "abc.m4a" ∈ exFSm4a.audio ∧ audioList exFSm4a = [] ∧
    (transMain exTrans exFSm4a).2 = [] ∧ (transMain exTrans exFSm4a).1 = exFSm4a := by
  refine ⟨by decide, by decide, by decide, by decide⟩

/-- Claim C2, amended: the Transcriber enumerates exactly the `*.mp3`
files present in the audio directory (glob `*.mp3`; a leading-dot name is
hidden from the glob), in deterministic lexicographic order, and its main
loop folds over that enumeration; every `<id>.mp3` stored by the Fetcher
is visited, but an audio file stored via the prefix fallback with a
non-mp3 extension is not. -/
theorem claim_C2_amended (fs : FS) :
    (∀ a, a ∈ audioList fs ↔
      (a ∈ fs.audio ∧ strEndsWith ".mp3" a = true ∧ strStartsWith "." a = false)) ∧
    List.Pairwise (fun x y => strLe x y = true) (audioList fs) ∧
    (∀ c : TransCollab, transMain c fs = (audioList fs).foldl (transStep c) (fs, [])) := by
  refine ⟨?_, sorted_sortNames _, fun c => rfl⟩
  intro a
  unfold audioList
  rw [mem_sortNames, List.mem_filter]
  constructor
  · rintro ⟨h1, h2⟩
    rw [Bool.and_eq_true, Bool.not_eq_true'] at h2
    exact ⟨h1, h2.1, h2.2⟩
  · rintro ⟨h1, h2, h3⟩
    refine ⟨h1, ?_⟩
    rw [Bool.and_eq_true, Bool.not_eq_true']
    exact ⟨h2, h3⟩

/-- Claim C2, witness: the amended enumeration characterization evaluated
on a concrete directory holding `a.mp3`, `b.mp3` (visited, in order) and
an m4a (not visited). -/
theorem claim_C2_witness :
    ("a.mp3" ∈ audioList exFSmp3 ↔
      ("a.mp3" ∈ exFSmp3.audio ∧ strEndsWith ".mp3" "a.mp3" = true ∧
        strStartsWith "." "a.mp3" = false)) ∧
    ("abc.m4a" ∈ audioList exFSm4a ↔
      ("abc.m4a" ∈ exFSm4a.audio ∧ strEndsWith ".mp3" "abc.m4a" = true ∧
        strStartsWith "." "abc.m4a" = false)) ∧
    List.Pairwise (fun x y => strLe x y = true) (audioList exFSmp3) :=
  ⟨(claim_C2_amended exFSmp3).1 "a.mp3",
   (claim_C2_amended exFSm4a).1 "abc.m4a",
   (claim_C2_amended exFSmp3).2.1⟩

/-- Claim C3: if the transcript text file for id X exists, the Transcriber
iteration for an audio file with stem X is a complete no-op — no
transcription attempt (nothing appended to the attempt log), no file
write, no metadata update — even when the JSON segment file for X is
absent: the text file alone is the checkpoint. -/
theorem claim_C3 (c : TransCollab) (fs : FS) (log : List String) (a : String)
    (htxt : (getA fs.transcripts (stem a ++ ".txt")).isSome)
    (hjson : getA fs.transcripts (stem a ++ ".json") = none) :
    transStep c (fs, log) a = (fs, log) := by
  unfold transStep
  rw [transStepFS_of_txt c fs a htxt, if_pos htxt]

/-- Claim C3, witness: a state holding `x.txt` but no `x.json`; the step
on `x.mp3` changes nothing. -/
theorem claim_C3_witness :
    (getA exFStxt.transcripts (stem "x.mp3" ++ ".txt")).isSome = true ∧
    getA exFStxt.transcripts (stem "x.mp3" ++ ".json") = none ∧
    transStep exTrans (exFStxt, []) "x.mp3" = (exFStxt, []) :=
  ⟨by decide, by decide, claim_C3 exTrans exFStxt [] "x.mp3" (by decide) (by decide)⟩

/-- Claim C4: metadata updates are non-destructive read-modify-writes.
When the Transcriber successfully processes an item whose Metadata Record
exists with `audio_path` set, the stored record becomes the old record
with `transcript_path` assigned: `audio_path` keeps its value,
`transcript_path` is gained, and every key other than `transcript_path`
keeps its old value. The Summarizer's `summary_path` update preserves
fields the same way. -/
theorem claim_C4 :
    (∀ (c : TransCollab) (fs : FS) (a : String) (m : MetaRec) (v : JVal),
      getA fs.transcripts (stem a ++ ".txt") = none →
      c.fail a = none →
      getA fs.metadata (stem a) = some m →
      getA m "audio_path" = some v →
      getA (transStepFS c fs a).metadata (stem a) =
        some (putA m "transcript_path"
          (JVal.str (TRANS_DIR ++ "/" ++ (stem a ++ ".txt")))) ∧
      getA (putA m "transcript_path"
        (JVal.str (TRANS_DIR ++ "/" ++ (stem a ++ ".txt")))) "audio_path" = some v ∧
      getA (putA m "transcript_path"
          (JVal.str (TRANS_DIR ++ "/" ++ (stem a ++ ".txt")))) "transcript_path" =
        some (JVal.str (TRANS_DIR ++ "/" ++ (stem a ++ ".txt"))) ∧
      (∀ k, k ≠ "transcript_path" →
        getA (putA m "transcript_path"
          (JVal.str (TRANS_DIR ++ "/" ++ (stem a ++ ".txt")))) k = getA m k)) ∧
    (∀ (c : SummCollab) (ue : Bool) (fs : FS) (t raw : String) (m : MetaRec),
      getA fs.summaries (stem t ++ "_summary.txt") = none →
      getA fs.transcripts t = some raw →
      ¬ (pyStrip raw).length < 100 →
      c.fail t = false →
      getA fs.metadata (stem t) = some m →
      getA (summStepFS c ue fs t).metadata (stem t) =
        some (putA m "summary_path"
          (JVal.str (SUMM_DIR ++ "/" ++ (stem t ++ "_summary.txt")))) ∧
      (∀ k, k ≠ "summary_path" →
        getA (putA m "summary_path"
          (JVal.str (SUMM_DIR ++ "/" ++ (stem t ++ "_summary.txt")))) k = getA m k)) := by
  constructor
  · intro c fs a m v htxt hfail hm hv
    refine ⟨?_, ?_, getA_putA_self _ _ _, fun k hk => getA_putA_ne _ _ _ _ hk⟩
    · simp only [transStepFS, htxt, Option.isSome_none, Bool.false_eq_true, if_false,
        hfail, hm]
      exact getA_putA_self _ _ _
    · rw [getA_putA_ne _ _ _ _ (by decide)]
      exact hv
  · intro c ue fs t raw m hout hraw hlen hfail hm
    refine ⟨?_, fun k hk => getA_putA_ne _ _ _ _ hk⟩
    simp only [summStepFS, hout, Option.isSome_none, Bool.false_eq_true, if_false,
      hraw, if_neg hlen, hfail, hm]
    exact getA_putA_self _ _ _

/-- Claim C4, witness: concrete record with `audio_path` set; after the
Transcriber and Summarizer steps the record keeps `audio_path` (and, for
the Summarizer, `transcript_path`) while gaining the new path field. -/
theorem claim_C4_witness :
    getA (transStepFS exTrans exFSmp3 "a.mp3").metadata (stem "a.mp3") =
      some (putA [("video_id", JVal.str "a"),
        ("audio_path", JVal.str "data/audio/a.mp3")] "transcript_path"
        (JVal.str (TRANS_DIR ++ "/" ++ (stem "a.mp3" ++ ".txt")))) ∧
    getA (putA [("video_id", JVal.str "a"),
        ("audio_path", JVal.str "data/audio/a.mp3")] "transcript_path"
        (JVal.str (TRANS_DIR ++ "/" ++ (stem "a.mp3" ++ ".txt"))))
      "audio_path" = some (JVal.str "data/audio/a.mp3") ∧
    getA (summStepFS exSumm false exFSsumm "a.txt").metadata (stem "a.txt") =
      some (putA [("video_id", JVal.str "a"),
        ("audio_path", JVal.str "data/audio/a.mp3"),
        ("transcript_path", JVal.str "data/transcripts/a.txt")] "summary_path"
        (JVal.str (SUMM_DIR ++ "/" ++ (stem "a.txt" ++ "_summary.txt")))) ∧
    getA (putA [("video_id", JVal.str "a"),
        ("audio_path", JVal.str "data/audio/a.mp3"),
        ("transcript_path", JVal.str "data/transcripts/a.txt")] "summary_path"
        (JVal.str (SUMM_DIR ++ "/" ++ (stem "a.txt" ++ "_summary.txt"))))
      "transcript_path" = some (JVal.str "data/transcripts/a.txt") :=
  ⟨(claim_C4.1 exTrans exFSmp3 "a.mp3"
      [("video_id", JVal.str "a"), ("audio_path", JVal.str "data/audio/a.mp3")]
      (JVal.str "data/audio/a.mp3") (by decide) (by decide) (by decide)
      (by decide)).1,
   (claim_C4.1 exTrans exFSmp3 "a.mp3"
      [("video_id", JVal.str "a"), ("audio_path", JVal.str "data/audio/a.mp3")]
      (JVal.str "data/audio/a.mp3") (by decide) (by decide) (by decide)
      (by decide)).2.1,
   (claim_C4.2 exSumm false exFSsumm "a.txt" exLong
      [("video_id", JVal.str "a"), ("audio_path", JVal.str "data/audio/a.mp3"),
       ("transcript_path", JVal.str "data/transcripts/a.txt")]
      (by decide) (by decide) (by decide) (by decide) (by decide)).1,
   (claim_C4.2 exSumm false exFSsumm "a.txt" exLong
      [("video_id", JVal.str "a"), ("audio_path", JVal.str "data/audio/a.mp3"),
       ("transcript_path", JVal.str "data/transcripts/a.txt")]
      (by decide) (by decide) (by decide) (by decide) (by decide)).2
      "transcript_path" (by decide)⟩

/-- Claim C6: a transcript whose stripped text is shorter than 100
characters is skipped silently — the Summarizer iteration writes no
Summary Artifact, raises no error, performs no metadata update (it is a
complete no-op, the log included), and the loop continues with the next
item. -/
theorem claim_C6 (c : SummCollab) (ue : Bool) (fs : FS)
    (log : List (String × Strategy)) (t raw : String)
    (hraw : getA fs.transcripts t = some raw)
    (hlen : (pyStrip raw).length < 100) :
    summStep c ue (fs, log) t = (fs, log) := by
  unfold summStep
  rw [summStepFS_of_short c ue fs t raw hraw hlen]
  unfold summStepLog
  by_cases hout : (getA fs.summaries (stem t ++ "_summary.txt")).isSome
  · rw [if_pos hout]
  · rw [if_neg hout]
    simp only [hraw, if_pos hlen]

/-- Claim C6, witness: a 12-character transcript; the step is a no-op. -/
theorem claim_C6_witness :
    getA exFSsumm.transcripts "b.txt" = some exShort ∧
    (pyStrip exShort).length < 100 ∧
    summStep exSumm false (exFSsumm, []) "b.txt" = (exFSsumm, []) :=
  ⟨by decide, by decide,
   claim_C6 exSumm false exFSsumm [] "b.txt" exShort (by decide) (by decide)⟩

/-- Claim C10: the Transcriber's metadata update is last. For an item not
yet checkpointed, any injected failure — the transcription call, the text
write, or the JSON write raising — leaves the item's metadata untouched;
when nothing raises, both the text file and the JSON segment file are
present in the resulting state (the update having happened only after
both writes). -/
theorem claim_C10 (c : TransCollab) (fs : FS) (a : String)
    (htxt : getA fs.transcripts (stem a ++ ".txt") = none) :
    (∀ k, c.fail a = some k → (transStepFS c fs a).metadata = fs.metadata) ∧
    (c.fail a = none →
      (getA (transStepFS c fs a).transcripts (stem a ++ ".txt")).isSome ∧
      (getA (transStepFS c fs a).transcripts (stem a ++ ".json")).isSome) := by
  constructor
  · intro k hk
    cases k with
    | atTranscribe => rw [transStepFS_of_failT c fs a (Or.inl hk)]
    | atWriteTxt => rw [transStepFS_of_failT c fs a (Or.inr hk)]
    | atWriteJson =>
      simp [transStepFS, htxt, hk]
  · intro hfail
    refine ⟨transStepFS_txt_after c fs a (Or.inl hfail), ?_⟩
    rcases hm : getA fs.metadata (stem a) with _ | m <;>
      simp [transStepFS, htxt, hfail, hm, getA_putA_self]

/-- Claim C10, witness: with a JSON-write failure injected the metadata is
unchanged; with no failure both transcript files exist afterwards. -/
theorem claim_C10_witness :
    (transStepFS exTransJfail exFSmp3 "a.mp3").metadata = exFSmp3.metadata ∧
    (getA (transStepFS exTrans exFSmp3 "a.mp3").transcripts
      (stem "a.mp3" ++ ".txt")).isSome = true ∧
    (getA (transStepFS exTrans exFSmp3 "a.mp3").transcripts
      (stem "a.mp3" ++ ".json")).isSome = true :=
  ⟨(claim_C10 exTransJfail exFSmp3 "a.mp3" (by decide)).1 TFail.atWriteJson
      (by decide),
   ((claim_C10 exTrans exFSmp3 "a.mp3" (by decide)).2 (by decide)).1,
   ((claim_C10 exTrans exFSmp3 "a.mp3" (by decide)).2 (by decide)).2⟩

/-- Claim C5: the abstractive path splits the input into fixed 5000-character
chunks, invokes the summarization call once per chunk (the result is the
per-chunk summaries, each stripped, one for each chunk in original order),
and joins them with single spaces; a 12000-character transcript yields
exactly 3 chunk summaries joined into one string. -/
theorem claim_C5 (f : String → String) (text : String) (h : text.length = 12000) :
    abstractive_summary f text =
      String.intercalate " "
        [pyStrip (f (String.mk (text.toList.take 5000))),
         pyStrip (f (String.mk ((text.toList.drop 5000).take 5000))),
         pyStrip (f (String.mk ((text.toList.drop 10000).take 5000)))] ∧
    (pyChunks text.toList 5000).length = 3 := by
  have hl : text.toList.length = 12000 := h
  have hc := pyChunks_at_12000 text.toList hl
  constructor
  · unfold abstractive_summary
    rw [hc]
    rfl
  · rw [hc]
    rfl

theorem exText12k_length : exText12k.length = 12000 := by
  show (List.replicate 12000 'a').length = 12000
  rw [List.length_replicate]

/-- Claim C5, witness: a concrete 12000-character transcript under a
concrete chunk summarizer. -/
theorem claim_C5_witness :
    exText12k.length = 12000 ∧
    abstractive_summary (fun _ => " S ") exText12k =
      String.intercalate " "
        [pyStrip ((fun _ => " S ") (String.mk (exText12k.toList.take 5000))),
         pyStrip ((fun _ => " S ") (String.mk ((exText12k.toList.drop 5000).take 5000))),
         pyStrip ((fun _ => " S ") (String.mk ((exText12k.toList.drop 10000).take 5000)))] ∧
    (pyChunks exText12k.toList 5000).length = 3 :=
  ⟨exText12k_length, (claim_C5 (fun _ => " S ") exText12k exText12k_length).1,
   (claim_C5 (fun _ => " S ") exText12k exText12k_length).2⟩

/-- Claim C7: the strategy is fixed once per run, before the loop; every
item that reaches the summarization call in a run uses the extractive
path when abstractive initialization failed, and the abstractive path
otherwise — no run mixes strategies across items. -/
theorem claim_C7 (c : SummCollab) (fs : FS) :
    ∀ p ∈ (summMain c fs).2,
      p.2 = (if c.initFails then Strategy.extractive else Strategy.abstractive) := by
  intro p hp
  unfold summMain at hp
  rcases foldl_summStep_log c c.initFails (transcriptList fs) (fs, []) p hp with h | h
  · exact absurd h (List.not_mem_nil p)
  · exact h

set_option maxRecDepth 40000 in
/-- Claim C7, witness: the same state summarized under a successfully
initialized abstractive pipeline uses the abstractive path, and under a
failed initialization uses the extractive path, on every processed item. -/
theorem claim_C7_witness :
    ("a", Strategy.abstractive) ∈ (summMain exSumm exFSsumm).2 ∧
    (("a", Strategy.abstractive) : String × Strategy).2 =
      (if exSumm.initFails then Strategy.extractive else Strategy.abstractive) ∧
    ("a", Strategy.extractive) ∈ (summMain exSummExt exFSsumm).2 ∧
    (("a", Strategy.extractive) : String × Strategy).2 =
      (if exSummExt.initFails then Strategy.extractive else Strategy.abstractive) :=
  ⟨by decide, claim_C7 exSumm exFSsumm _ (by decide),
   by decide, claim_C7 exSummExt exFSsumm _ (by decide)⟩

/-- Claim C8: for an entry whose retrieval call returns without raising, a
Metadata Record is written (and retrievable under the item's id) and the
record is appended to the returned list, unconditionally; when the
expected `<id>.mp3` is absent from the audio directory after the
download, the recorded audio path is the first prefix-search match, or
null when there is none. -/
theorem claim_C8 (c : FetchCollab) (fs : FS) (res : List MetaRec) (e : Entry)
    (files : List String) (hdl : c.dl e = some files) :
    getA (downloadStep c (fs, res) (some e)).1.metadata e.id =
      some (downloadMeta (dlInsert fs.audio files) e) ∧
    (downloadStep c (fs, res) (some e)).2 =
      res ++ [downloadMeta (dlInsert fs.audio files) e] ∧
    ((e.id ++ ".mp3") ∉ dlInsert fs.audio files →
      getA (downloadMeta (dlInsert fs.audio files) e) "audio_path" =
        some (match ((dlInsert fs.audio files).filter
            (fun n => strStartsWith (e.id ++ ".") n)).head? with
          | some n => JVal.str (AUDIO_DIR ++ "/" ++ n)
          | none => JVal.null)) := by
  refine ⟨?_, ?_, ?_⟩
  · show getA (downloadStepFS c fs (some e)).metadata e.id = _
    rw [downloadStepFS_success c fs e files hdl]
    exact getA_putA_self _ _ _
  · simp [downloadStep, hdl]
  · intro hmem
    rcases hh : ((dlInsert fs.audio files).filter
        (fun n => strStartsWith (e.id ++ ".") n)).head? with _ | n <;>
      simp [downloadMeta, downloadFound, getA, hmem, hh]

/-- Claim C8, witness: a download that leaves `vid1.m4a` instead of
`vid1.mp3`; the record is written, returned, and its audio path is the
prefix-fallback match. -/
theorem claim_C8_witness :
    getA (downloadStep exFetchM4a (fs0, []) (some exEntry)).1.metadata exEntry.id =
      some (downloadMeta (dlInsert fs0.audio ["vid1.m4a"]) exEntry) ∧
    (downloadStep exFetchM4a (fs0, []) (some exEntry)).2 =
      [] ++ [downloadMeta (dlInsert fs0.audio ["vid1.m4a"]) exEntry] ∧
    getA (downloadMeta (dlInsert fs0.audio ["vid1.m4a"]) exEntry) "audio_path" =
      some (JVal.str "data/audio/vid1.m4a") :=
  ⟨(claim_C8 exFetchM4a fs0 [] exEntry ["vid1.m4a"] (by decide)).1,
   (claim_C8 exFetchM4a fs0 [] exEntry ["vid1.m4a"] (by decide)).2.1,
   by decide⟩

/-- Claim C9: the chunk decomposition is lossless — concatenating the
5000-character chunks in order restores the input text exactly — and for
nonempty text the number of chunks is the ceiling of the text length
divided by 5000. -/
theorem claim_C9 (text : String) :
    (pyChunks text.toList 5000).flatten = text.toList ∧
    (text.toList ≠ [] →
      (pyChunks text.toList 5000).length = (text.length + 4999) / 5000) := by
  constructor
  · unfold pyChunks
    rw [if_neg (by omega)]
    exact chunksOfAux_flatten 5000 (by omega) _ _ le_rfl
  · intro hne
    unfold pyChunks
    rw [if_neg (by omega)]
    rw [chunksOfAux_length 5000 (by omega) _ _ hne le_rfl]
    show (text.toList.length + 5000 - 1) / 5000 = (text.toList.length + 4999) / 5000
    congr 1

/-- Claim C9, witness: a concrete short text — one chunk containing
exactly the text. -/
theorem claim_C9_witness :
    (pyChunks "hello".toList 5000).flatten = "hello".toList ∧
    "hello".toList ≠ [] ∧
    (pyChunks "hello".toList 5000).length = ("hello".length + 4999) / 5000 :=
  ⟨(claim_C9 "hello").1, by decide, (claim_C9 "hello").2 (by decide)⟩
